import Mathlib

/-!
Verification of the fan-out/fan-in pipeline in `precode.go`.

The program has four component roles:
- `Generator ctx ch fn`: an infinite loop that, on each iteration, polls the
  cancellation context with a non-blocking select; on the default branch it
  increments its counter `g`, sends `g` on `ch`, and calls the accounting hook
  `fn g`; on cancellation it returns, and a deferred `close(ch)` runs.
- `Worker in out`: a loop `v, ok := <-in; if !ok break; out <- v; sleep`,
  with a deferred `close(out)`.
- In `main`, one collector goroutine per worker output channel:
  `for val := range in { amounts[i]++; chOut <- val }`, plus a closer
  goroutine `wg.Wait(); close(chOut)`.
- The aggregator loop in `main`: `for v := range chOut { count++; sum += v }`,
  followed by three report lines and three consistency checks that call
  `log.Fatalf` on failure.

We embed each goroutine body as a pure function from the values it happens to
receive (which, for the shared channel `chIn`, are decided by the scheduler)
to the trace of channel operations it performs.  Values are `int64`; within a
time-bounded run overflow is unreachable, so they are modelled as `Int`.
-/

namespace Sprint9

/-- The channels of the pipeline: the shared input channel `chIn` (written by
the Generator, read by all workers), the per-worker output channels
`outs[i]`, and the buffered merge channel `chOut`. -/
inductive ChanId : Type
  | chIn : ChanId
  | out : Nat → ChanId
  | chOut : ChanId
  deriving DecidableEq, Repr

/-- A single channel-level operation performed by one goroutine, plus the
Generator's call of the accounting hook and the Worker's sleep. -/
inductive Op : Type
  | send : ChanId → Int → Op
  | recv : ChanId → Int → Op
  | recvClosed : ChanId → Op
  | close : ChanId → Op
  | fnCall : Int → Op
  | sleep : Op
  deriving DecidableEq, Repr

/-- The values sent on channel `c` within a trace, in program order. -/
def sendValuesOn (c : ChanId) (ops : List Op) : List Int :=
  ops.filterMap fun o =>
    match o with
    | Op.send c' v => if c' = c then some v else none
    | _ => none

/-- The values the trace passes to the accounting hook `fn`, in program order. -/
def fnCallValues (ops : List Op) : List Int :=
  ops.filterMap fun o =>
    match o with
    | Op.fnCall v => some v
    | _ => none

/-- The values received from channel `c` within a trace, in program order. -/
def recvValuesOn (c : ChanId) (ops : List Op) : List Int :=
  ops.filterMap fun o =>
    match o with
    | Op.recv c' v => if c' = c then some v else none
    | _ => none

/-! ## Generator

```go
func Generator(ctx context.Context, ch chan<- int64, fn func(int64)) {
	var g int64
	defer close(ch)
	for {
		select {
		case <-ctx.Done():
			return
		default:
			g++
			ch <- g
			fn(g)
		}
	}
}
```

`done k` tells whether the k-th non-blocking select finds `ctx.Done()` ready
(in which case the select takes that case and the function returns).  `fuel`
bounds the number of iterations we unfold; a complete run has `done` firing
within the fuel. -/

/-- The loop body of `Generator`: iterations of the `for`/`select`, starting
from counter value `g`.  Each non-cancelled iteration increments `g`, sends
the new value on `chIn`, then calls `fn` with that value. -/
def generatorBody : Nat → (Nat → Bool) → Int → List Op
  | 0, _, _ => []
  | fuel + 1, done, g =>
    if done 0 then []
    else Op.send ChanId.chIn (g + 1) :: Op.fnCall (g + 1) ::
      generatorBody fuel (fun k => done (k + 1)) (g + 1)

/-- The full trace of `Generator`: the loop iterations followed by the
deferred `close(ch)` that runs when the function returns. -/
def generatorOps (fuel : Nat) (done : Nat → Bool) : List Op :=
  generatorBody fuel done 0 ++ [Op.close ChanId.chIn]

/-- The number of values the Generator produces: the number of loop
iterations before the select observes cancellation. -/
def genIters : Nat → (Nat → Bool) → Nat
  | 0, _ => 0
  | fuel + 1, done =>
    if done 0 then 0
    else genIters fuel (fun k => done (k + 1)) + 1

/-- The strictly increasing sequence `g + 1, g + 2, ..., g + m`. -/
def seqFrom (g : Int) : Nat → List Int
  | 0 => []
  | m + 1 => (g + 1) :: seqFrom (g + 1) m

/-- The sequence `1, 2, ..., m` as `int64` values. -/
def seq1 (m : Nat) : List Int :=
  seqFrom 0 m

/-! ## Worker

```go
func Worker(in <-chan int64, out chan<- int64) {
	defer close(out)
	for {
		v, ok := <-in
		if !ok {
			break
		}
		out <- v
		time.Sleep(1 * time.Millisecond)
	}
	return
}
```

`input` is the list of values this worker's receives on the shared channel
happen to return before the receive reports closure. -/

/-- The loop of `Worker` number `i`: receive from `chIn`; on `ok = false`
break; otherwise send the value on `outs[i]` and sleep. -/
def workerLoop (i : Nat) : List Int → List Op
  | [] => [Op.recvClosed ChanId.chIn]
  | v :: rest =>
    Op.recv ChanId.chIn v :: Op.send (ChanId.out i) v :: Op.sleep ::
      workerLoop i rest

/-- The full trace of `Worker` number `i`: the loop followed by the deferred
`close(out)`. -/
def workerOps (i : Nat) (input : List Int) : List Op :=
  workerLoop i input ++ [Op.close (ChanId.out i)]

/-- The values worker `i` forwards to its private output channel. -/
def workerSends (i : Nat) (input : List Int) : List Int :=
  sendValuesOn (ChanId.out i) (workerOps i input)

/-! ## Collector goroutines

```go
go func(in <-chan int64, i int64) {
	defer wg.Done()
	for val := range in {
		amounts[i]++
		chOut <- val
	}
}(v, int64(j))
```
-/

/-- The channel-operation trace of collector `i`: drain `outs[i]` with a
range loop, forwarding every value to `chOut` (the `amounts[i]++` update is
modelled separately by `CollectorState`). -/
def collectorOps (i : Nat) : List Int → List Op
  | [] => [Op.recvClosed (ChanId.out i)]
  | v :: rest => Op.recv (ChanId.out i) v :: Op.send ChanId.chOut v :: collectorOps i rest

/-- The values collector `i` forwards into the merge channel. -/
def collectorSends (i : Nat) (input : List Int) : List Int :=
  sendValuesOn ChanId.chOut (collectorOps i input)

/-- The channel-operation trace of the closer goroutine in `main`
(`wg.Wait(); close(chOut)`): the only channel operation it performs is the
single close of the merge channel. -/
def closerOps : List Op :=
  [Op.close ChanId.chOut]

/-- The private state of one collector: the values still to be received from
its assigned worker output channel, its counter slot `amounts[i]`, and the
values already forwarded to `chOut`, oldest first. -/
structure CollectorState : Type where
  pending : List Int
  amount : Int
  sent : List Int
  deriving DecidableEq, Repr

/-- The state of collector `i` before its first iteration. -/
def CollectorState.init (input : List Int) : CollectorState :=
  { pending := input, amount := 0, sent := [] }

/-- One iteration of the collector loop: take the next value from the
assigned channel, increment `amounts[i]`, send the value to `chOut`.  When
the assigned channel is exhausted the range loop ends and the state is
unchanged. -/
def collectorStep (s : CollectorState) : CollectorState :=
  match s.pending with
  | [] => s
  | v :: rest => { pending := rest, amount := s.amount + 1, sent := s.sent ++ [v] }

/-- The counter slot `amounts[i]` after collector `i` has fully drained its
assigned channel. -/
def collectorAmount (input : List Int) : Int :=
  (collectorStep^[input.length] (CollectorState.init input)).amount

/-! ## Accounting closure and aggregator loop in `main`

```go
go Generator(ctx, chIn, func(i int64) {
	atomic.AddInt64(&inputSum, i)
	atomic.AddInt64(&inputCount, 1)
})
...
for v := range chOut {
	count++
	sum += v
}
```
-/

/-- One call of the accounting hook: state is `(inputSum, inputCount)`. -/
def accountStep (s : Int × Int) (v : Int) : Int × Int :=
  (s.1 + v, s.2 + 1)

/-- `(inputSum, inputCount)` after the hook has been called for each value of
`calls` in order, starting from zero. -/
def accountState (calls : List Int) : Int × Int :=
  calls.foldl accountStep (0, 0)

/-- One iteration of the aggregator's drain loop: state is `(count, sum)`. -/
def aggregateStep (s : Int × Int) (v : Int) : Int × Int :=
  (s.1 + 1, s.2 + v)

/-- `(count, sum)` after the aggregator has drained the merge channel, whose
values arrived in the order given by `merged`. -/
def aggregate (merged : List Int) : Int × Int :=
  merged.foldl aggregateStep (0, 0)

/-! ## The report and the three consistency checks at the end of `main`

```go
fmt.Println("Количество чисел", inputCount, count)
fmt.Println("Сумма чисел", inputSum, sum)
fmt.Println("Разбивка по каналам", amounts)

if inputSum != sum {
	log.Fatalf("Ошибка: суммы чисел не равны: %d != %d\n", inputSum, sum)
}
if inputCount != count {
	log.Fatalf("Ошибка: количество чисел не равно: %d != %d\n", inputCount, count)
}
for _, v := range amounts {
	inputCount -= v
}
if inputCount != 0 {
	log.Fatalf("Ошибка: разделение чисел по каналам неверное\n")
}
```
-/

/-- The three integrity violations `main` can diagnose, in source order. -/
inductive CheckFailure : Type
  | sumMismatch : CheckFailure
  | countMismatch : CheckFailure
  | partitionMismatch : CheckFailure
  deriving DecidableEq, Repr

/-- A line of process output: the three report lines, or a `log.Fatalf`
diagnostic. -/
inductive Line : Type
  | counts : Int → Int → Line
  | sums : Int → Int → Line
  | breakdown : List Int → Line
  | fatal : CheckFailure → Line
  deriving DecidableEq, Repr

/-- Whether an output line is a `log.Fatalf` diagnostic. -/
def Line.isFatal : Line → Bool
  | Line.fatal _ => true
  | _ => false

/-- The destructive loop `for _, v := range amounts { inputCount -= v }`:
the value of the `inputCount` variable after the loop. -/
def drainCounter (inputCount : Int) (amounts : List Int) : Int :=
  amounts.foldl (fun acc v => acc - v) inputCount

/-- The three consistency checks of `main`, in source order; returns the
first failure, if any.  The third check compares the overwritten
`inputCount` variable (see `drainCounter`) with zero. -/
def runChecks (inputSum inputCount sum count : Int) (amounts : List Int) :
    Option CheckFailure :=
  if inputSum ≠ sum then some CheckFailure.sumMismatch
  else if inputCount ≠ count then some CheckFailure.countMismatch
  else if drainCounter inputCount amounts ≠ 0 then some CheckFailure.partitionMismatch
  else none

/-- The tail of `main` after the drain loop: print the three report lines,
then run the checks; `log.Fatalf` prints a diagnostic and exits with status
1, otherwise the process reaches the end of `main` and exits with status 0.
Returns the output lines and the exit status. -/
def mainEpilogue (inputSum inputCount sum count : Int) (amounts : List Int) :
    List Line × Nat :=
  let printed := [Line.counts inputCount count, Line.sums inputSum sum,
    Line.breakdown amounts]
  match runChecks inputSum inputCount sum count amounts with
  | some f => (printed ++ [Line.fatal f], 1)
  | none => (printed, 0)

/-- The tail of `main` from the drain loop on: fully drain the merge channel
(whose values arrive in the order `merged`), then print and check. -/
def mainFinish (inputSum inputCount : Int) (amounts : List Int)
    (merged : List Int) : List Line × Nat :=
  mainEpilogue inputSum inputCount (aggregate merged).2 (aggregate merged).1 amounts

/-! ## Schedule model for the closer goroutine and the join barrier

```go
var wg sync.WaitGroup
for j, v := range outs {
	wg.Add(1)
	go func(in <-chan int64, i int64) {
		defer wg.Done()
		for val := range in { amounts[i]++; chOut <- val }
	}(v, int64(j))
}
go func() {
	wg.Wait()
	close(chOut)
}()
```

A run is an interleaving (a list) of the events that touch the merge channel
and the join barrier: collector sends on `chOut`, collector `wg.Done` calls,
the return of `wg.Wait()` in the closer goroutine, and `close(chOut)`.  The
conditions in `ValidSchedule` are exactly what the code and the WaitGroup
primitive guarantee; everything else about the interleaving is free. -/

/-- An event of the merge phase, in a pool of `W` collectors. -/
inductive MEvent (W : Nat) : Type
  | collSend : Fin W → Int → MEvent W
  | collDone : Fin W → MEvent W
  | waitRet : MEvent W
  | closeChOut : MEvent W
  deriving DecidableEq, Repr

/-- Whether an event is a send by collector `i` on `chOut`. -/
def isCollSend {W : Nat} (i : Fin W) : MEvent W → Bool
  | MEvent.collSend j _ => j = i
  | _ => false

/-- Whether an event is collector `i` signalling completion (`wg.Done`). -/
def isCollDone {W : Nat} (i : Fin W) : MEvent W → Bool
  | MEvent.collDone j => j = i
  | _ => false

/-- Whether an event belongs to the closer goroutine
(`wg.Wait(); close(chOut)`). -/
def isCloserEv {W : Nat} : MEvent W → Bool
  | MEvent.waitRet => true
  | MEvent.closeChOut => true
  | _ => false

/-- Whether an event is the return of `wg.Wait()`. -/
def isWaitRet {W : Nat} : MEvent W → Bool
  | MEvent.waitRet => true
  | _ => false

/-- Event at position `j` of the schedule satisfies `p`. -/
def atEv {W : Nat} (tr : List (MEvent W)) (j : Nat) (p : MEvent W → Bool) : Prop :=
  (tr.get? j).any p = true

instance {W : Nat} (tr : List (MEvent W)) (j : Nat) (p : MEvent W → Bool) :
    Decidable (atEv tr j p) :=
  inferInstanceAs (Decidable (_ = true))

/-- What the code structure and the `sync` primitives guarantee about any
interleaving of the merge phase:
- the closer goroutine is straight-line code that runs `wg.Wait()` once and
  then `close(chOut)` once, and nothing else touches `close(chOut)` or the
  barrier's wait side;
- each collector's sends precede its deferred `wg.Done` (program order);
- `wg.Wait()` returns only after every collector has called `wg.Done`
  (WaitGroup semantics, with one `wg.Add(1)` per collector). -/
structure ValidSchedule {W : Nat} (tr : List (MEvent W)) : Prop where
  closer_proj : tr.filter isCloserEv = [MEvent.waitRet, MEvent.closeChOut]
  send_before_done : ∀ i : Fin W, ∀ j < tr.length, ∀ d < tr.length,
    atEv tr j (isCollSend i) → atEv tr d (isCollDone i) → j < d
  done_before_wait : ∀ k < tr.length, atEv tr k isWaitRet →
    ∀ i : Fin W, ∃ d < k, atEv tr d (isCollDone i)

/-! ## Structural lemmas about the Generator trace -/

/-- Helper: `m` generator iterations starting from counter value `g`. -/
def genBlocks (g : Int) : Nat → List Op
  | 0 => []
  | m + 1 => Op.send ChanId.chIn (g + 1) :: Op.fnCall (g + 1) :: genBlocks (g + 1) m

theorem generatorBody_eq_genBlocks (fuel : Nat) :
    ∀ (done : Nat → Bool) (g : Int),
      generatorBody fuel done g = genBlocks g (genIters fuel done) := by
  induction fuel with
  | zero => intro done g; rfl
  | succ fuel ih =>
    intro done g
    by_cases h : done 0
    · simp [generatorBody, genIters, h, genBlocks]
    · simp [generatorBody, genIters, h, genBlocks, ih]

theorem sendValuesOn_genBlocks (m : Nat) :
    ∀ g : Int, sendValuesOn ChanId.chIn (genBlocks g m) = seqFrom g m := by
  induction m with
  | zero => intro g; rfl
  | succ m ih =>
    intro g
    simp [genBlocks, sendValuesOn, seqFrom]
    have h2 := ih (g + 1)
    simp only [sendValuesOn] at h2
    exact h2

theorem fnCallValues_genBlocks (m : Nat) :
    ∀ g : Int, fnCallValues (genBlocks g m) = seqFrom g m := by
  induction m with
  | zero => intro g; rfl
  | succ m ih =>
    intro g
    simp [genBlocks, fnCallValues, seqFrom]
    have h2 := ih (g + 1)
    simp only [fnCallValues] at h2
    exact h2

theorem sendValuesOn_chIn_generatorOps (fuel : Nat) (done : Nat → Bool) :
    sendValuesOn ChanId.chIn (generatorOps fuel done) = seq1 (genIters fuel done) := by
  simp only [generatorOps, sendValuesOn, List.filterMap_append,
    generatorBody_eq_genBlocks]
  have h := sendValuesOn_genBlocks (genIters fuel done) 0
  simp only [sendValuesOn] at h
  simp [h, seq1]

theorem fnCallValues_generatorOps (fuel : Nat) (done : Nat → Bool) :
    fnCallValues (generatorOps fuel done) = seq1 (genIters fuel done) := by
  simp only [generatorOps, fnCallValues, List.filterMap_append,
    generatorBody_eq_genBlocks]
  have h := fnCallValues_genBlocks (genIters fuel done) 0
  simp only [fnCallValues] at h
  simp [h, seq1]

/-- Position `k` of `seqFrom g m` holds exactly `g + 1 + k`. -/
theorem seqFrom_get? (m : Nat) :
    ∀ (g : Int) (k : Nat), k < m → (seqFrom g m).get? k = some (g + 1 + k) := by
  induction m with
  | zero => intro g k hk; omega
  | succ m ih =>
    intro g k hk
    cases k with
    | zero => simp [seqFrom]
    | succ k =>
      have h2 := ih (g + 1) k (by omega)
      simp only [seqFrom, List.get?_cons_succ, h2]
      congr 1
      push_cast
      ring

/-! ## Structural lemmas about Worker and collector traces -/

theorem workerSends_eq (i : Nat) (input : List Int) :
    workerSends i input = input := by
  have key : ∀ l : List Int, sendValuesOn (ChanId.out i) (workerLoop i l) = l := by
    intro l
    induction l with
    | nil => simp [workerLoop, sendValuesOn]
    | cons v rest ih =>
      simp only [workerLoop, sendValuesOn, List.filterMap_cons] at ih ⊢
      simp [ih]
  simp only [workerSends, workerOps, sendValuesOn, List.filterMap_append]
  have h := key input
  simp only [sendValuesOn] at h
  simp [h]

theorem collectorSends_eq (i : Nat) (input : List Int) :
    collectorSends i input = input := by
  simp only [collectorSends]
  induction input with
  | nil => simp [collectorOps, sendValuesOn]
  | cons v rest ih =>
    simp only [collectorOps, sendValuesOn, List.filterMap_cons] at ih ⊢
    simp [ih]

/-- Closed form for the collector's state after `k` loop iterations, for any
starting counter value and already-sent list. -/
theorem collectorStep_iterate (k : Nat) :
    ∀ (input : List Int) (a : Int) (s : List Int), k ≤ input.length →
      collectorStep^[k] { pending := input, amount := a, sent := s } =
        { pending := input.drop k, amount := a + k, sent := s ++ input.take k } := by
  induction k with
  | zero => intro input a s _; simp
  | succ k ih =>
    intro input a s hk
    cases input with
    | nil => simp at hk
    | cons v rest =>
      rw [Function.iterate_succ_apply]
      have hstep : collectorStep { pending := v :: rest, amount := a, sent := s } =
          { pending := rest, amount := a + 1, sent := s ++ [v] } := rfl
      rw [hstep, ih rest (a + 1) (s ++ [v]) (by simpa using Nat.succ_le_succ_iff.mp hk)]
      simp only [CollectorState.mk.injEq]
      refine ⟨by simp, by push_cast; ring, by simp⟩

/-- Closed form for the aggregator's drain loop. -/
theorem aggregate_eq (merged : List Int) :
    aggregate merged = ((merged.length : Int), merged.sum) := by
  have key : ∀ (l : List Int) (c s : Int),
      l.foldl aggregateStep (c, s) = (c + l.length, s + l.sum) := by
    intro l
    induction l with
    | nil => intro c s; simp
    | cons v rest ih =>
      intro c s
      simp only [List.foldl_cons, aggregateStep, ih, List.length_cons, List.sum_cons,
        Prod.mk.injEq]
      constructor <;> (push_cast; ring)
  simpa using key merged 0 0

/-- Closed form for the accounting closure in `main`: after the hook has run
once per value of `calls`, `inputSum` is their sum and `inputCount` their
number. -/
theorem accountState_eq (calls : List Int) :
    accountState calls = (calls.sum, (calls.length : Int)) := by
  have key : ∀ (l : List Int) (s c : Int),
      l.foldl accountStep (s, c) = (s + l.sum, c + l.length) := by
    intro l
    induction l with
    | nil => intro s c; simp
    | cons v rest ih =>
      intro s c
      simp only [List.foldl_cons, accountStep, ih, List.length_cons, List.sum_cons,
        Prod.mk.injEq]
      constructor <;> (push_cast; ring)
  simpa using key calls 0 0

theorem seqFrom_length (m : Nat) : ∀ g : Int, (seqFrom g m).length = m := by
  induction m with
  | zero => intro g; rfl
  | succ m ih => intro g; simp [seqFrom, ih]

/-- In a list whose `p`-filtered projection is exactly `[a, b]` with
`a ≠ b` and `p b` true, every occurrence of `b` has an occurrence of `a`
strictly before it. -/
theorem filter_pair_before {α : Type} (p : α → Bool) (a b : α) (hab : a ≠ b)
    (hpb : p b = true) :
    ∀ tr : List α, tr.filter p = [a, b] →
      ∀ c, tr.get? c = some b → ∃ k < c, tr.get? k = some a := by
  intro tr
  induction tr with
  | nil => intro h; simp [List.filter] at h
  | cons e rest ih =>
    intro h c hc
    by_cases hp : p e
    · rw [List.filter_cons_of_pos hp] at h
      have he : e = a := (List.cons_eq_cons.mp h).1
      cases c with
      | zero =>
        exfalso
        apply hab
        have : e = b := by simpa using hc
        rw [← he, this]
      | succ c =>
        exact ⟨0, Nat.succ_pos c, by simpa using he⟩
    · rw [List.filter_cons_of_neg hp] at h
      cases c with
      | zero =>
        exfalso
        have he : e = b := by simpa using hc
        rw [he] at hp
        exact hp hpb
      | succ c =>
        obtain ⟨k, hk, hget⟩ := ih h c (by simpa using hc)
        exact ⟨k + 1, Nat.succ_lt_succ hk, by simpa using hget⟩

/-- A position that carries an event is inside the schedule. -/
theorem atEv_lt_length {W : Nat} {tr : List (MEvent W)} {j : Nat}
    {p : MEvent W → Bool} (h : atEv tr j p) : j < tr.length := by
  by_contra hle
  rw [atEv, List.get?_eq_none.mpr (Nat.le_of_not_lt hle)] at h
  simp at h

/-- The Generator's loop iterations contain no close operation at all. -/
theorem count_close_genBlocks (m : Nat) :
    ∀ (g : Int) (c : ChanId), (genBlocks g m).count (Op.close c) = 0 := by
  induction m with
  | zero => intro g c; rfl
  | succ m ih =>
    intro g c
    simp [genBlocks, List.count_cons, ih]

/-- Canonical form of the Worker loop trace. -/
theorem workerLoop_eq_flatMap (i : Nat) (input : List Int) :
    workerLoop i input =
      (input.flatMap fun v =>
        [Op.recv ChanId.chIn v, Op.send (ChanId.out i) v, Op.sleep]) ++
        [Op.recvClosed ChanId.chIn] := by
  induction input with
  | nil => rfl
  | cons v rest ih => simp [workerLoop, ih]

/-- The Worker loop performs no close operation. -/
theorem count_close_workerLoop (i : Nat) (input : List Int) (c : ChanId) :
    (workerLoop i input).count (Op.close c) = 0 := by
  induction input with
  | nil => simp [workerLoop, List.count_cons]
  | cons v rest ih => simp [workerLoop, List.count_cons, ih]

/-- A collector performs no close operation. -/
theorem count_close_collectorOps (i : Nat) (input : List Int) (c : ChanId) :
    (collectorOps i input).count (Op.close c) = 0 := by
  induction input with
  | nil => simp [collectorOps, List.count_cons]
  | cons v rest ih => simp [collectorOps, List.count_cons, ih]

/-- A worker receives exactly the values of its input, in order. -/
theorem recvValuesOn_workerOps (i : Nat) (input : List Int) :
    recvValuesOn ChanId.chIn (workerOps i input) = input := by
  have key : ∀ l : List Int, recvValuesOn ChanId.chIn (workerLoop i l) = l := by
    intro l
    induction l with
    | nil => rfl
    | cons v rest ih =>
      simp only [workerLoop, recvValuesOn, List.filterMap_cons] at ih ⊢
      simp [ih]
  simp only [workerOps, recvValuesOn, List.filterMap_append]
  have h := key input
  simp only [recvValuesOn] at h
  simp [h]

/-- After a full drain, a collector's counter slot holds exactly the number
of values it received. -/
theorem collectorAmount_eq (input : List Int) :
    collectorAmount input = (input.length : Int) := by
  rw [collectorAmount, CollectorState.init,
    collectorStep_iterate input.length input 0 [] le_rfl]
  simp

/-- The destructive partition loop subtracts exactly the sum of `amounts`. -/
theorem drainCounter_eq (amounts : List Int) :
    ∀ inputCount : Int, drainCounter inputCount amounts = inputCount - amounts.sum := by
  induction amounts with
  | nil => intro c; simp [drainCounter]
  | cons v rest ih =>
    intro c
    simp only [drainCounter, List.foldl_cons] at ih ⊢
    rw [ih (c - v)]
    simp [List.sum_cons]
    ring

/-! ## Claim theorems -/

/-- Claim C2: for every run, the Generator sends the strictly increasing
sequence 1, 2, 3, … on its output channel (the k-th value sent is exactly
k), and after sending each value k it invokes the caller-supplied hook `fn`
synchronously with that exact value k, before producing the next value, so
after n values have been sent the hook has been called exactly once for each
of 1..n.  The trace is exactly `send 1, fn 1, send 2, fn 2, …` (see
`genBlocks`) up to the iteration where the select observes cancellation. -/
theorem generator_sequence_and_hook (fuel : Nat) (done : Nat → Bool) :
    generatorOps fuel done =
        genBlocks 0 (genIters fuel done) ++ [Op.close ChanId.chIn]
    ∧ sendValuesOn ChanId.chIn (generatorOps fuel done) = seq1 (genIters fuel done)
    ∧ fnCallValues (generatorOps fuel done) =
        sendValuesOn ChanId.chIn (generatorOps fuel done)
    ∧ ∀ k < genIters fuel done,
        (sendValuesOn ChanId.chIn (generatorOps fuel done)).get? k =
          some ((k : Int) + 1) := by
  refine ⟨?_, ?_, ?_, ?_⟩
  · rw [generatorOps, generatorBody_eq_genBlocks]
  · exact sendValuesOn_chIn_generatorOps fuel done
  · rw [fnCallValues_generatorOps, sendValuesOn_chIn_generatorOps]
  · intro k hk
    rw [sendValuesOn_chIn_generatorOps, seq1, seqFrom_get? _ 0 k hk]
    norm_num
    ring

/-- Claim C2, witness: a run whose select observes cancellation at the
fourth poll sends exactly `[1, 2, 3]`, and position 1 holds the value 2. -/
theorem generator_sequence_and_hook_witness :
    sendValuesOn ChanId.chIn (generatorOps 4 (fun k => Nat.ble 3 k)) = seq1 3
    ∧ (sendValuesOn ChanId.chIn (generatorOps 4 (fun k => Nat.ble 3 k))).get? 1 =
        some 2 := by
  refine ⟨(generator_sequence_and_hook 4 (fun k => Nat.ble 3 k)).2.1, ?_⟩
  have h := (generator_sequence_and_hook 4 (fun k => Nat.ble 3 k)).2.2.2 1 (by decide)
  simpa using h

/-- Claim C3: the Generator closes its output channel exactly once, as the
very last thing it does before returning; no execution path of its loop
performs a close; and no other component of the pipeline (worker, collector,
closer goroutine) ever closes the shared input channel. -/
theorem generator_close_ownership (fuel : Nat) (done : Nat → Bool)
    (i j : Nat) (winput cinput : List Int) :
    (generatorOps fuel done).count (Op.close ChanId.chIn) = 1
    ∧ (generatorOps fuel done).getLast? = some (Op.close ChanId.chIn)
    ∧ (generatorBody fuel done 0).count (Op.close ChanId.chIn) = 0
    ∧ (workerOps i winput).count (Op.close ChanId.chIn) = 0
    ∧ (collectorOps j cinput).count (Op.close ChanId.chIn) = 0
    ∧ closerOps.count (Op.close ChanId.chIn) = 0 := by
  refine ⟨?_, ?_, ?_, ?_, ?_, ?_⟩
  · rw [generatorOps, List.count_append, generatorBody_eq_genBlocks,
      count_close_genBlocks]
    rfl
  · exact List.getLast?_concat _
  · rw [generatorBody_eq_genBlocks, count_close_genBlocks]
  · rw [workerOps, List.count_append, count_close_workerLoop]
    simp [List.count_cons]
  · exact count_close_collectorOps j cinput ChanId.chIn
  · rfl

/-- Claim C4: if the cancellation deadline is already expired when the
Generator starts, cancellation is observable at the latest by the second
poll of the non-blocking select, so the Generator produces at most one value
before halting: the iteration count is 0 or 1. -/
theorem generator_expired_deadline (fuel : Nat) (done : Nat → Bool)
    (h : done 0 = true ∨ done 1 = true) :
    genIters fuel done = 0 ∨ genIters fuel done = 1 := by
  cases fuel with
  | zero => exact Or.inl rfl
  | succ fuel =>
    by_cases h0 : done 0
    · exact Or.inl (by simp [genIters, h0])
    · have h1 : done 1 = true := h.resolve_left h0
      right
      cases fuel with
      | zero => simp [genIters, h0]
      | succ fuel => simp [genIters, h0, h1]

/-- Claim C4, witness: with cancellation already observable at the first
poll, the Generator produces no value at all. -/
theorem generator_expired_deadline_witness :
    genIters 5 (fun _ => true) = 0 ∨ genIters 5 (fun _ => true) = 1 :=
  generator_expired_deadline 5 (fun _ => true) (Or.inl rfl)

/-- Claim C5: every worker loops receive / forward-unchanged / sleep; when
the receive reports the channel closed and drained it stops and closes its
own private output channel exactly once.  The full trace is the canonical
interleaving, the forwarded values are exactly the received input, and
nothing is transformed, dropped or duplicated. -/
theorem worker_loop_behaviour (i : Nat) (input : List Int) :
    workerOps i input =
      (input.flatMap fun v =>
        [Op.recv ChanId.chIn v, Op.send (ChanId.out i) v, Op.sleep]) ++
        [Op.recvClosed ChanId.chIn, Op.close (ChanId.out i)]
    ∧ workerSends i input = input
    ∧ (workerOps i input).count (Op.close (ChanId.out i)) = 1 := by
  refine ⟨?_, workerSends_eq i input, ?_⟩
  · rw [workerOps, workerLoop_eq_flatMap]
    simp
  · rw [workerOps, List.count_append, count_close_workerLoop]
    simp [List.count_cons]

/-- Claim C9: each worker preserves per-worker FIFO order: the sequence of
values it sends on its private output channel equals the sequence of values
it received from the shared input channel, in the same order. -/
theorem worker_fifo_order (i : Nat) (input : List Int) :
    workerSends i input = recvValuesOn ChanId.chIn (workerOps i input)
    ∧ recvValuesOn ChanId.chIn (workerOps i input) = input := by
  rw [workerSends_eq, recvValuesOn_workerOps]
  exact ⟨rfl, rfl⟩

/-- Claim C6: at every point of collector `i`'s loop, its counter slot
`amounts[i]` equals the number of values it has accounted so far (one
increment per value forwarded to the merge channel); the slot is a function
of that collector's input alone, and once its input channel is closed and
drained the collector has forwarded exactly the values it received,
unmodified and in order, into the merge channel. -/
theorem collector_counter_invariant (i : Nat) (input : List Int) (k : Nat)
    (hk : k ≤ input.length) :
    (collectorStep^[k] (CollectorState.init input)).amount =
        (((collectorStep^[k] (CollectorState.init input)).sent.length : Nat) : Int)
    ∧ (collectorStep^[k] (CollectorState.init input)).amount = (k : Int)
    ∧ (collectorStep^[k] (CollectorState.init input)).sent = input.take k
    ∧ (collectorStep^[input.length] (CollectorState.init input)).sent = input
    ∧ collectorSends i input = input := by
  have hinit : CollectorState.init input =
      { pending := input, amount := 0, sent := [] } := rfl
  have h := collectorStep_iterate k input 0 [] hk
  rw [← hinit] at h
  have hfull := collectorStep_iterate input.length input 0 [] le_rfl
  rw [← hinit] at hfull
  refine ⟨?_, ?_, ?_, ?_, collectorSends_eq i input⟩
  · rw [h]
    simp [List.length_take, Nat.min_eq_left hk]
  · rw [h]; simp
  · rw [h]; simp
  · rw [hfull]; simp

/-- Claim C6, witness: two iterations on the input `[4, 5, 6]`. -/
theorem collector_counter_invariant_witness :
    (collectorStep^[2] (CollectorState.init [4, 5, 6])).amount = (2 : Int)
    ∧ (collectorStep^[2] (CollectorState.init [4, 5, 6])).sent = [4, 5, 6].take 2 := by
  have h := collector_counter_invariant 0 [4, 5, 6] 2 (by decide)
  exact ⟨h.2.1, h.2.2.1⟩

/-- Claim C1: conservation.  For every complete run — the Generator performs
some iterations before observing cancellation; channel semantics hand each
sent value to exactly one worker (`hpart`); each worker forwards its values
to its collector, and the merge channel carries some interleaving of the
collectors' sends (`hmerge`) — the sum of the per-collector counters equals
the generator's tracked count `inputCount`, which equals the aggregator's
`count`; the generator's tracked `inputSum` equals the aggregator's `sum`;
and the multiset of values the aggregator reads equals the multiset of
values the Generator produced. -/
theorem pipeline_conservation (fuel : Nat) (done : Nat → Bool) (W : Nat)
    (recvs : Fin W → List Int) (merged : List Int)
    (hpart : ((List.finRange W).flatMap fun i => recvs i).Perm
      (sendValuesOn ChanId.chIn (generatorOps fuel done)))
    (hmerge : merged.Perm ((List.finRange W).flatMap fun i =>
      collectorSends i.val (workerSends i.val (recvs i)))) :
    ((List.finRange W).map fun i =>
        collectorAmount (workerSends i.val (recvs i))).sum
      = (accountState (fnCallValues (generatorOps fuel done))).2
    ∧ (aggregate merged).1 = (accountState (fnCallValues (generatorOps fuel done))).2
    ∧ (aggregate merged).2 = (accountState (fnCallValues (generatorOps fuel done))).1
    ∧ merged.Perm (sendValuesOn ChanId.chIn (generatorOps fuel done)) := by
  simp only [collectorSends_eq, workerSends_eq] at hmerge
  have hMain : merged.Perm (sendValuesOn ChanId.chIn (generatorOps fuel done)) :=
    hmerge.trans hpart
  have hsend := sendValuesOn_chIn_generatorOps fuel done
  have hacc : accountState (fnCallValues (generatorOps fuel done)) =
      ((seq1 (genIters fuel done)).sum, ((seq1 (genIters fuel done)).length : Int)) := by
    rw [fnCallValues_generatorOps, accountState_eq]
  have hflatlen : ((List.finRange W).flatMap fun i => recvs i).length =
      (seq1 (genIters fuel done)).length := by
    rw [hpart.length_eq, hsend]
  refine ⟨?_, ?_, ?_, hMain⟩
  · rw [hacc]
    simp only [workerSends_eq, collectorAmount_eq]
    have hcast : ((List.finRange W).map fun i => ((recvs i).length : Int)) =
        ((List.finRange W).map fun i => (recvs i).length).map (fun n : Nat => (n : Int)) := by
      rw [List.map_map]
      rfl
    rw [hcast, ← Nat.cast_list_sum]
    congr 1
    have : ((List.finRange W).flatMap fun i => recvs i).length =
        (((List.finRange W).map fun i => recvs i).map List.length).sum := by
      rw [List.flatMap, List.length_flatten]
    rw [List.map_map] at this
    rw [show ((List.finRange W).map fun i => (recvs i).length) =
        (List.finRange W).map (List.length ∘ fun i => recvs i) from rfl, ← this, hflatlen]
  · rw [hacc, aggregate_eq]
    simp only
    rw [hMain.length_eq, hsend]
  · rw [hacc, aggregate_eq]
    simp only
    rw [hMain.sum_eq, hsend]

/-- Claim C1, witness: a run of three values with two workers, where worker
0 receives 1 and 3, worker 1 receives 2, and the merge channel carries the
interleaving `[2, 1, 3]`. -/
theorem pipeline_conservation_witness :
    (aggregate [2, 1, 3]).1 =
        (accountState (fnCallValues (generatorOps 4 (fun k => Nat.ble 3 k)))).2
    ∧ (aggregate [2, 1, 3]).2 =
        (accountState (fnCallValues (generatorOps 4 (fun k => Nat.ble 3 k)))).1 := by
  have h := pipeline_conservation 4 (fun k => Nat.ble 3 k) 2
    (fun i => if i.val = 0 then [1, 3] else [2]) [2, 1, 3] (by decide) (by decide)
  exact ⟨h.2.1, h.2.2.1⟩

/-- Claim C7: in every valid interleaving of the merge phase, the merge
channel is closed exactly once, and the close happens only after every
collector send: each collector's sends precede its completion signal, every
completion signal precedes the return of the join barrier, and the single
close follows the barrier. -/
theorem merge_close_after_join {W : Nat} (tr : List (MEvent W))
    (vs : ValidSchedule tr) :
    tr.count MEvent.closeChOut = 1
    ∧ ∀ c, tr.get? c = some MEvent.closeChOut →
        ∀ i : Fin W, ∀ j, atEv tr j (isCollSend i) → j < c := by
  constructor
  · have h1 : (tr.filter isCloserEv).count MEvent.closeChOut =
        tr.count MEvent.closeChOut := List.count_filter rfl
    rw [← h1, vs.closer_proj]
    rfl
  · intro c hc i j hj
    obtain ⟨k, hkc, hk⟩ := filter_pair_before isCloserEv MEvent.waitRet
      MEvent.closeChOut (fun h => MEvent.noConfusion h) rfl tr vs.closer_proj c hc
    have hklen : k < tr.length := by
      obtain ⟨hlt, -⟩ := List.get?_eq_some.mp hk
      exact hlt
    have hkev : atEv tr k isWaitRet := by
      show (tr.get? k).any isWaitRet = true
      rw [hk]
      rfl
    obtain ⟨d, hdk, hd⟩ := vs.done_before_wait k hklen hkev i
    have hdlen : d < tr.length := lt_trans hdk hklen
    have hjlen : j < tr.length := atEv_lt_length hj
    have hjd := vs.send_before_done i j hjlen d hdlen hj hd
    omega

/-- Claim C7, witness: a concrete schedule with one collector. -/
theorem merge_close_after_join_witness :
    ([MEvent.collSend (0 : Fin 1) 7, MEvent.collDone 0, MEvent.waitRet,
        MEvent.closeChOut].count MEvent.closeChOut) = 1 :=
  (merge_close_after_join _ ⟨by decide, by decide, by decide⟩).1

/-- Claim C8: the consistency checks run once, on the aggregate of the fully
drained merge channel; if they all pass the process prints the three report
lines and exits with status 0; if one fails it halts with status 1 and a
diagnostic identifying the broken invariant; and passing is equivalent to
the three conservation equations. -/
theorem report_and_checks (inputSum inputCount : Int) (amounts merged : List Int) :
    (runChecks inputSum inputCount (aggregate merged).2 (aggregate merged).1
        amounts = none →
      mainFinish inputSum inputCount amounts merged =
        ([Line.counts inputCount (aggregate merged).1,
          Line.sums inputSum (aggregate merged).2, Line.breakdown amounts], 0))
    ∧ (∀ f, runChecks inputSum inputCount (aggregate merged).2 (aggregate merged).1
        amounts = some f →
      (mainFinish inputSum inputCount amounts merged).2 = 1
      ∧ (mainFinish inputSum inputCount amounts merged).1.getLast? =
          some (Line.fatal f))
    ∧ (runChecks inputSum inputCount (aggregate merged).2 (aggregate merged).1
        amounts = none ↔
      inputSum = merged.sum ∧ inputCount = (merged.length : Int)
        ∧ inputCount = amounts.sum) := by
  refine ⟨?_, ?_, ?_⟩
  · intro h
    simp [mainFinish, mainEpilogue, h]
  · intro f h
    simp [mainFinish, mainEpilogue, h]
  · simp only [runChecks, drainCounter_eq, aggregate_eq]
    by_cases h1 : inputSum = merged.sum <;>
      by_cases h2 : inputCount = (merged.length : Int) <;>
        simp [h1, h2, sub_eq_zero]

/-- Claim C8, witness: a passing run with values `[1, 2, 3]` and counters
`inputSum = 6`, `inputCount = 3`, `amounts = [1, 2]`. -/
theorem report_and_checks_witness :
    mainFinish 6 3 [1, 2] [1, 2, 3] =
      ([Line.counts 3 (aggregate [1, 2, 3]).1, Line.sums 6 (aggregate [1, 2, 3]).2,
        Line.breakdown [1, 2]], 0) :=
  (report_and_checks 6 3 [1, 2] [1, 2, 3]).1 (by decide)

/-- Claim C10: the checks run in the order sum, count, partition, and the
first failure is the single diagnostic ever emitted; the partition check is
destructive — it subtracts every `amounts[i]` from the `inputCount` variable
and compares the remainder with zero, so (once the first two checks passed)
it tests `sum(amounts) == inputCount` while overwriting `inputCount`. -/
theorem check_order_and_destructive_partition (inputSum inputCount sum count : Int)
    (amounts : List Int) :
    (inputSum ≠ sum →
      runChecks inputSum inputCount sum count amounts = some CheckFailure.sumMismatch)
    ∧ (inputSum = sum → inputCount ≠ count →
      runChecks inputSum inputCount sum count amounts = some CheckFailure.countMismatch)
    ∧ (inputSum = sum → inputCount = count →
      runChecks inputSum inputCount sum count amounts =
        if inputCount = amounts.sum then none else some CheckFailure.partitionMismatch)
    ∧ drainCounter inputCount amounts = inputCount - amounts.sum
    ∧ ∀ merged, ((mainFinish inputSum inputCount amounts merged).1.filter
        Line.isFatal).length ≤ 1 := by
  refine ⟨?_, ?_, ?_, drainCounter_eq amounts inputCount, ?_⟩
  · intro h
    simp [runChecks, h]
  · intro h1 h2
    simp [runChecks, h1, h2]
  · intro h1 h2
    by_cases h3 : inputCount = amounts.sum <;>
      simp [runChecks, h1, h2, h3, drainCounter_eq, sub_eq_zero]
  · intro merged
    cases hr : runChecks inputSum inputCount (aggregate merged).2 (aggregate merged).1
        amounts with
    | none => simp [mainFinish, mainEpilogue, hr, Line.isFatal]
    | some f => simp [mainFinish, mainEpilogue, hr, Line.isFatal]

/-- Claim C10, witness: with `inputSum = 1 ≠ 2 = sum` and the count check
also violated, only the sum diagnostic is produced. -/
theorem check_order_witness :
    runChecks 1 0 2 5 [] = some CheckFailure.sumMismatch :=
  (check_order_and_destructive_partition 1 0 2 5 []).1 (by decide)

end Sprint9
